import Mathlib

/-!
Verification of the LightRAG hybrid retrieval engine.

This file gives a shallow embedding of the chunking, fusion, feedback and
retrieval-agent logic of the repository (src/LightRAG), and proves the
frozen specification claims about it.  Python strings are modelled as
lists of characters, Python floats as rationals, and the database as
explicit state passed through the operations.
-/

namespace LightRAG

/-- Python strings are modelled as lists of characters; `len` is `List.length`. -/
abbrev Str := List Char

/-- The whitespace class of Python `\s`, `str.strip()` and `str.split()`
(ASCII range). -/
def isPyWs (c : Char) : Bool :=
  c = ' ' || c = '\t' || c = '\n' || c = '\r' || c = '\x0b' || c = '\x0c'

/-- ASCII upper-case letter, the regex class `[A-Z]`. -/
def isAsciiUpper (c : Char) : Bool := 'A' ≤ c && c ≤ 'Z'

/-- ASCII lower-case letter, the regex class `[a-z]`. -/
def isAsciiLower (c : Char) : Bool := 'a' ≤ c && c ≤ 'z'

/-- The regex class `[A-Za-z]`. -/
def isAsciiLetter (c : Char) : Bool := isAsciiUpper c || isAsciiLower c

/-- The regex word-character class `\w` (ASCII range). -/
def isWordChar (c : Char) : Bool :=
  isAsciiLetter c || ('0' ≤ c && c ≤ '9') || c = '_'

/-- Python `str.strip()`: drop leading and trailing whitespace. -/
def pyStrip (s : Str) : Str :=
  ((s.dropWhile isPyWs).reverse.dropWhile isPyWs).reverse

/-- Worker for `pySplit`; `cur` holds the current word reversed. -/
def pySplitGo (cur : Str) : Str → List Str
  | [] => if cur = [] then [] else [cur.reverse]
  | c :: rest =>
    if isPyWs c then
      if cur = [] then pySplitGo [] rest else cur.reverse :: pySplitGo [] rest
    else pySplitGo (c :: cur) rest

/-- Python `str.split()` with no argument: split on whitespace runs,
dropping empty pieces. -/
def pySplit (s : Str) : List Str := pySplitGo [] s

/-- One pass of `re.sub` for the patterns of `split_into_sentences`: each
pattern matches a single literal dot, with a condition on the reversed left
context (the lookbehind) and on the right context (the lookahead).  The
matched dot is replaced by `repl`; scanning continues on the original text. -/
def subDot (cond : Str → Str → Bool) (repl : Str) : Str → Str :=
  go []
where
  go (left : Str) : Str → Str
  | [] => []
  | c :: rest =>
    if c = '.' && cond left rest then repl ++ go ('.' :: left) rest
    else c :: go (c :: left) rest

/-- Lookahead helper: after skipping whitespace, the first character exists
and is an ASCII upper-case letter. -/
def firstNonWsUpper : Str → Bool
  | [] => false
  | c :: rest => if isPyWs c then firstNonWsUpper rest else isAsciiUpper c

/-- The regex lookahead `\s+[A-Z]`. -/
def wsThenUpper : Str → Bool
  | [] => false
  | c :: rest => isPyWs c && firstNonWsUpper rest

/-- The regex lookahead `\s` (a single whitespace follows). -/
def headIsWs : Str → Bool
  | [] => false
  | c :: _ => isPyWs c

/-- Condition of `(?<=[A-Za-z])\.(?=[A-Z][a-z])`. -/
def dotCond1 (left right : Str) : Bool :=
  (match left with | c :: _ => isAsciiLetter c | [] => false) &&
  (match right with | a :: b :: _ => isAsciiUpper a && isAsciiLower b | _ => false)

/-- Condition of `(?<=[A-Za-z])\.(?=\s+[A-Z])`. -/
def dotCond2 (left right : Str) : Bool :=
  (match left with | c :: _ => isAsciiLetter c | [] => false) && wsThenUpper right

/-- Condition of `(?<=[Mm]r)\.(?=\s)`. -/
def dotCondMr (left right : Str) : Bool :=
  (match left with | 'r' :: m :: _ => m = 'M' || m = 'm' | _ => false) && headIsWs right

/-- Condition of `(?<=[Dd]r)\.(?=\s)`. -/
def dotCondDr (left right : Str) : Bool :=
  (match left with | 'r' :: d :: _ => d = 'D' || d = 'd' | _ => false) && headIsWs right

/-- Condition of `(?<=[Mm]rs)\.(?=\s)`. -/
def dotCondMrs (left right : Str) : Bool :=
  (match left with | 's' :: 'r' :: m :: _ => m = 'M' || m = 'm' | _ => false) &&
  headIsWs right

/-- Condition of `(?<=[Mm]s)\.(?=\s)`. -/
def dotCondMs (left right : Str) : Bool :=
  (match left with | 's' :: m :: _ => m = 'M' || m = 'm' | _ => false) && headIsWs right

/-- Condition of `(?<=[A-Za-z])\.(?=[A-Za-z])`. -/
def dotCondLetters (left right : Str) : Bool :=
  (match left with | c :: _ => isAsciiLetter c | [] => false) &&
  (match right with | c :: _ => isAsciiLetter c | [] => false)

/-- The literal marker `<<DOT>>` used to protect abbreviation dots. -/
def dotMarker : Str := String.toList "<<DOT>>"

/-- Python `str.replace` of the marker back to a dot. -/
def restoreDots : Str → Str
  | '<' :: '<' :: 'D' :: 'O' :: 'T' :: '>' :: '>' :: rest => '.' :: restoreDots rest
  | c :: rest => c :: restoreDots rest
  | [] => []

/-- Sentence-ending punctuation, the regex class `[.!?]`. -/
def isSentEnd (c : Char) : Bool := c = '.' || c = '!' || c = '?'

/-- Worker for the split on `(?<=[.!?])\s+`: when a whitespace character
follows sentence-ending punctuation, the whole whitespace run is consumed
and a new piece begins.  `cur` holds the current piece reversed; `prev`
is the previously scanned character. -/
def splitSentGo (skipping : Bool) (cur : Str) (prev : Option Char) : Str → List Str
  | [] => [cur.reverse]
  | c :: rest =>
    if skipping then
      if isPyWs c then splitSentGo true [] none rest
      else splitSentGo false [c] (some c) rest
    else
      if isPyWs c && (match prev with | some p => isSentEnd p | none => false) then
        cur.reverse :: splitSentGo true [] none rest
      else splitSentGo false (c :: cur) (some c) rest

/-- `split_into_sentences` from src/LightRAG/chunking.py: the seven `re.sub`
passes, the split on sentence boundaries, marker restoration, and the final
strip-and-filter. -/
def split_into_sentences (text : Str) : List Str :=
  let t1 := subDot dotCond1 ['.', ' '] text
  let t2 := subDot dotCond2 ['.', ' '] t1
  let t3 := subDot dotCondMr dotMarker t2
  let t4 := subDot dotCondDr dotMarker t3
  let t5 := subDot dotCondMrs dotMarker t4
  let t6 := subDot dotCondMs dotMarker t5
  let t7 := subDot dotCondLetters dotMarker t6
  let pieces := splitSentGo false [] none t7
  ((pieces.map restoreDots).map pyStrip).filter (fun s => s ≠ [])

/-- Python `current_chunk += " " + piece` guarded by `if current_chunk`. -/
def joinWithSpace (cur piece : Str) : Str :=
  if cur = [] then piece else cur ++ ' ' :: piece

/-- The inner word loop of `split_by_max_length` (chunking.py lines 176-184). -/
def wordLoop (maxL : ℕ) : List Str → List Str → Str → List Str × Str
  | [], chunks, cur => (chunks, cur)
  | w :: rest, chunks, cur =>
    if cur.length + w.length + 1 ≤ maxL then
      wordLoop maxL rest chunks (joinWithSpace cur w)
    else wordLoop maxL rest (chunks ++ [cur]) w

/-- The sentence loop of `split_by_max_length` (chunking.py lines 161-186). -/
def sentLoop (maxL : ℕ) : List Str → List Str → Str → List Str × Str
  | [], chunks, cur => (chunks, cur)
  | s :: rest, chunks, cur =>
    if cur.length + s.length + 1 ≤ maxL then
      sentLoop maxL rest chunks (joinWithSpace cur s)
    else
      if maxL < s.length then
        sentLoop maxL rest
          (wordLoop maxL (pySplit s) (if cur = [] then chunks else chunks ++ [cur]) []).1
          (wordLoop maxL (pySplit s) (if cur = [] then chunks else chunks ++ [cur]) []).2
      else sentLoop maxL rest (if cur = [] then chunks else chunks ++ [cur]) s

/-- `split_by_max_length` from src/LightRAG/chunking.py. -/
def split_by_max_length (text : Str) (max_length : ℕ) : List Str :=
  if text.length ≤ max_length then [text]
  else
    if (sentLoop max_length (split_into_sentences text) [] []).2 = [] then
      (sentLoop max_length (split_into_sentences text) [] []).1
    else
      (sentLoop max_length (split_into_sentences text) [] []).1 ++
        [(sentLoop max_length (split_into_sentences text) [] []).2]

/-- Python `range(0, n, step)` over machine integers: a zero step raises
`ValueError`, a negative step yields no indices, a positive step yields
the multiples of the step below `n`. -/
def pyRangeIdx (n : ℕ) (step : ℤ) : Except String (List ℕ) :=
  if step = 0 then Except.error "ValueError: range arg 3 must not be zero"
  else if step < 0 then Except.ok []
  else Except.ok ((List.range ((n + step.toNat - 1) / step.toNat)).map
    (fun k => k * step.toNat))

/-- The per-chunk maximum-length constraint applied both inside each
strategy loop (chunking.py lines 44-48 and the like) and in the final
pass (lines 116-124). -/
def enforceMax (maxL : ℕ) (chunk : Str) : List Str :=
  if maxL < chunk.length then split_by_max_length chunk maxL else [chunk]

/-- Python `sep.join`. -/
def joinSep (sep : Str) : List Str → Str
  | [] => []
  | [s] => s
  | s :: rest => s ++ sep ++ joinSep sep rest

/-- Backtracking of the regex `\n\s*\n` after its first newline: within the
maximal whitespace prefix, find the remainder after the last newline. -/
def findLastNlRest (best : Option Str) : Str → Option Str
  | [] => best
  | c :: rest =>
    if isPyWs c then
      if c = '\n' then findLastNlRest (some rest) rest
      else findLastNlRest best rest
    else best

/-- Flush helper for the split on `\n\s*\n`: given the current piece and a
pending whitespace run (reversed), decide whether the run contains a match
(at least two newlines).  Returns the piece to emit, if any, and the text
that begins the next piece. -/
def paraFlush (cur pend : Str) : Option Str × Str :=
  let pendOrd := pend.reverse
  if 2 ≤ pendOrd.countP (fun c => c = '\n') then
    (some (cur ++ pendOrd.takeWhile (fun c => c ≠ '\n')),
     (pend.takeWhile (fun c => c ≠ '\n')).reverse)
  else (none, cur ++ pendOrd)

/-- Worker for the split on `\n\s*\n`. -/
def paraGo (cur pend : Str) : Str → List Str
  | [] =>
    (match paraFlush cur pend with
     | (some piece, rest) => [piece, rest]
     | (none, cur1) => [cur1])
  | c :: input =>
    if isPyWs c then paraGo cur (c :: pend) input
    else
      match paraFlush cur pend with
      | (some piece, rest) => piece :: paraGo (rest ++ [c]) [] input
      | (none, cur1) => paraGo (cur1 ++ [c]) [] input

/-- The paragraph split `re.split` on `\n\s*\n` followed by the strip-and-filter
(chunking.py lines 52-53). -/
def splitParagraphs (text : Str) : List Str :=
  ((paraGo [] [] text).map pyStrip).filter (fun p => p ≠ [])

/-- Scanner state for the section split on `(?m)^#+\s+`. -/
inductive SecState where
  | normal (atStart : Bool)
  | inHash
  | inWs (lastNl : Bool)
deriving DecidableEq

/-- Worker for the section split: a run of `#` at a line start followed by at
least one whitespace character is a separator; the whitespace run is consumed
greedily and may end at a new line start. -/
def secGo (cur pend : Str) (st : SecState) : Str → List Str
  | [] =>
    (match st with
     | SecState.inWs _ => [cur, []]
     | _ => [cur ++ pend.reverse])
  | c :: rest =>
    match st with
    | SecState.normal atStart =>
      if atStart && c = '#' then secGo cur [c] SecState.inHash rest
      else secGo (cur ++ [c]) [] (SecState.normal (c = '\n')) rest
    | SecState.inHash =>
      if c = '#' then secGo cur (c :: pend) SecState.inHash rest
      else if isPyWs c then secGo cur (c :: pend) (SecState.inWs (c = '\n')) rest
      else secGo (cur ++ pend.reverse ++ [c]) [] (SecState.normal (c = '\n')) rest
    | SecState.inWs lastNl =>
      if isPyWs c then secGo cur (c :: pend) (SecState.inWs (c = '\n')) rest
      else if lastNl && c = '#' then cur :: secGo [] [c] SecState.inHash rest
      else cur :: secGo [c] [] (SecState.normal (c = '\n')) rest

/-- The section split `re.split` on `(?m)^#+\s+` followed by the
strip-and-filter (chunking.py lines 67-68). -/
def splitSections (text : Str) : List Str :=
  ((secGo [] [] (SecState.normal true) text).map pyStrip).filter (fun p => p ≠ [])

/-- The regex `re.findall` of `\b\w+\b`: maximal runs of word characters. -/
def wordRunsGo (cur : Str) : Str → List Str
  | [] => if cur = [] then [] else [cur.reverse]
  | c :: rest =>
    if isWordChar c then wordRunsGo (c :: cur) rest
    else if cur = [] then wordRunsGo [] rest
    else cur.reverse :: wordRunsGo [] rest

/-- All word runs of a text. -/
def wordRuns (s : Str) : List Str := wordRunsGo [] s

/-- The stop-word set of `calculate_semantic_similarity`. -/
def semStopWords : Finset Str :=
  (["the", "a", "an", "and", "or", "but", "is", "are", "was", "were"].map
    String.toList).toFinset

/-- `calculate_semantic_similarity` from src/LightRAG/chunking.py: Jaccard
similarity of the lower-cased word sets after stop-word removal. -/
def calculate_semantic_similarity (t1 t2 : Str) : ℚ :=
  if t1 = [] ∨ t2 = [] then 0
  else
    let words1 := (wordRuns (t1.map Char.toLower)).toFinset \ semStopWords
    let words2 := (wordRuns (t2.map Char.toLower)).toFinset \ semStopWords
    if words1 = ∅ ∨ words2 = ∅ then 0
    else
      let inter := (words1 ∩ words2).card
      let union := (words1 ∪ words2).card
      if 0 < union then (inter : ℚ) / (union : ℚ) else 0

/-- Accumulator of the semantic strategy loop (chunking.py lines 89-110). -/
structure SemAcc where
  chunks : List Str
  current_chunk : Str
  current_topic : Str
deriving DecidableEq

/-- One step of the semantic strategy loop over a paragraph. -/
def semanticStep (maxL : ℕ) (acc : SemAcc) (para : Str) : SemAcc :=
  match split_into_sentences para with
  | [] => acc
  | topic :: _ =>
    if acc.current_chunk ≠ [] ∧
       (maxL < acc.current_chunk.length + para.length ∨
        calculate_semantic_similarity acc.current_topic topic < 1/2) then
      ⟨acc.chunks ++ [acc.current_chunk], para, topic⟩
    else
      if acc.current_chunk ≠ [] then
        ⟨acc.chunks, acc.current_chunk ++ '\n' :: '\n' :: para, acc.current_topic⟩
      else ⟨acc.chunks, para, topic⟩

/-- The semantic strategy of `chunk_transcript` (chunking.py lines 80-114). -/
def semanticChunks (text : Str) (maxL : ℕ) : List Str :=
  let acc := (splitParagraphs text).foldl (semanticStep maxL) ⟨[], [], []⟩
  if acc.current_chunk ≠ [] then acc.chunks ++ [acc.current_chunk] else acc.chunks

/-- `chunk_transcript` from src/LightRAG/chunking.py.  The loop
`for i in range(0, len(units), chunk_size - overlap)` is modelled through
`pyRangeIdx`; a zero step surfaces as the `ValueError` that Python raises. -/
def chunk_transcript (text : Str) (chunk_size overlap : ℕ) (strategy : String)
    (max_chars_per_chunk : ℕ) : Except String (List Str) :=
  if text = [] then Except.ok []
  else
    let step : ℤ := (chunk_size : ℤ) - (overlap : ℤ)
    let chunksE : Except String (List Str) :=
      if strategy = "sentence" then
        let sentences := split_into_sentences text
        (pyRangeIdx sentences.length step).map (fun idxs =>
          idxs.flatMap (fun i =>
            enforceMax max_chars_per_chunk
              (joinSep [' '] ((sentences.drop i).take chunk_size))))
      else if strategy = "paragraph" then
        let paragraphs := splitParagraphs text
        (pyRangeIdx paragraphs.length step).map (fun idxs =>
          idxs.flatMap (fun i =>
            enforceMax max_chars_per_chunk
              (joinSep ('\n' :: '\n' :: []) ((paragraphs.drop i).take chunk_size))))
      else if strategy = "section" then
        let sections := splitSections text
        (pyRangeIdx sections.length step).map (fun idxs =>
          idxs.flatMap (fun i =>
            enforceMax max_chars_per_chunk
              (joinSep ('\n' :: '\n' :: []) ((sections.drop i).take chunk_size))))
      else if strategy = "semantic" then
        Except.ok (semanticChunks text max_chars_per_chunk)
      else Except.ok []
    chunksE.map (fun chunks => chunks.flatMap (enforceMax max_chars_per_chunk))

/-! ## Hybrid index store: search post-processing, fusion, feedback
(src/LightRAG/pgvector_client.py) -/

/-- The metadata of an embedding row as consumed by the fusion step (only
the `source` key is read there). -/
structure PgMeta where
  source : Option String
deriving DecidableEq

/-- A row fetched by the semantic-search SQL query, with its raw cosine
score `1 - (embedding <=> query)`. -/
structure SemRow where
  id : String
  content : Str
  metadata : Option PgMeta
  relevance_score : ℚ
  feedback_count : ℕ
  semantic_score : ℚ
deriving DecidableEq

/-- A row fetched by the keyword-search SQL query, with its raw
`ts_rank_cd` score. -/
structure KwRow where
  id : String
  content : Str
  metadata : Option PgMeta
  relevance_score : ℚ
  feedback_count : ℕ
  text_score : ℚ
deriving DecidableEq

/-- A result dictionary produced by either search. -/
structure SearchResult where
  id : String
  text : Str
  metadata : Option PgMeta
  score : ℚ
  feedback_count : ℕ
deriving DecidableEq

/-- Python builtin `min` over rationals (kept executable). -/
def pyMin (a b : ℚ) : ℚ := if a ≤ b then a else b

/-- Python builtin `max` / SQL `GREATEST` over rationals (kept executable). -/
def pyMax (a b : ℚ) : ℚ := if a ≤ b then b else a

/-- The feedback boost factor `min(feedback_count / 10, 0.2)`. -/
def feedbackBoost (fc : ℕ) : ℚ := pyMin ((fc : ℚ) / 10) (1/5)

/-- Boost application `min(score * (1 + boost), 1.0)`. -/
def applyBoost (score : ℚ) (fc : ℕ) : ℚ := pyMin (score * (1 + feedbackBoost fc)) 1

/-- The result-assembly loop of `_semantic_search` (pgvector_client.py lines
287-305): the raw score is boosted when the row has any feedback. -/
def semantic_search (rows : List SemRow) : List SearchResult :=
  rows.map (fun r =>
    { id := r.id, text := r.content, metadata := r.metadata,
      score := if 0 < r.feedback_count then applyBoost r.semantic_score r.feedback_count
               else r.semantic_score,
      feedback_count := r.feedback_count })

/-- The result-assembly loop of `_keyword_search` (pgvector_client.py lines
356-375). -/
def keyword_search (rows : List KwRow) : List SearchResult :=
  rows.map (fun r =>
    { id := r.id, text := r.content, metadata := r.metadata,
      score := if 0 < r.feedback_count then applyBoost r.text_score r.feedback_count
               else r.text_score,
      feedback_count := r.feedback_count })

/-- An entry of the `results_by_id` dictionary built during fusion. -/
structure MergedEntry where
  id : String
  text : Str
  metadata : Option PgMeta
  semantic_score : ℚ
  keyword_score : ℚ
  feedback_count : ℕ
deriving DecidableEq

/-- The entry created for a semantic result (missing keyword score is 0.0). -/
def semEntry (r : SearchResult) : MergedEntry :=
  ⟨r.id, r.text, r.metadata, r.score, 0, r.feedback_count⟩

/-- The entry created for a keyword-only result (missing semantic score is 0.0). -/
def kwEntry (r : SearchResult) : MergedEntry :=
  ⟨r.id, r.text, r.metadata, 0, r.score, r.feedback_count⟩

/-- Insertion of a semantic result into the insertion-ordered dictionary. -/
def upsertSem (entries : List MergedEntry) (r : SearchResult) : List MergedEntry :=
  if entries.any (fun e => e.id = r.id) then
    entries.map (fun e => if e.id = r.id then semEntry r else e)
  else entries ++ [semEntry r]

/-- Merge of a keyword result: a known id only receives its keyword score,
an unknown id is appended. -/
def upsertKw (entries : List MergedEntry) (r : SearchResult) : List MergedEntry :=
  if entries.any (fun e => e.id = r.id) then
    entries.map (fun e => if e.id = r.id then { e with keyword_score := r.score } else e)
  else entries ++ [kwEntry r]

/-- The keyword-score update a keyword list applies to an entry during the
merge: the score of the matching keyword result, if any, overwrites the
keyword side of the entry (verification helper for the fusion contract). -/
def applyKwScore (kw : List SearchResult) (e : MergedEntry) : MergedEntry :=
  match kw.find? (fun r => r.id = e.id) with
  | some r => { e with keyword_score := r.score }
  | none => e

/-- A fused result dictionary. -/
structure MergedResult where
  id : String
  text : Str
  metadata : Option PgMeta
  score : ℚ
  source : String
deriving DecidableEq

/-- Final scoring of one entry: hybrid 70/30 combination, then the feedback
boost (pgvector_client.py lines 483-497). -/
def scoreEntry (e : MergedEntry) : MergedResult :=
  { id := e.id, text := e.text, metadata := e.metadata,
    score := applyBoost (7/10 * e.semantic_score + 3/10 * e.keyword_score)
      e.feedback_count,
    source :=
      match e.metadata with
      | some m => m.source.getD "knowledge_base"
      | none => "knowledge_base" }

/-- `_merge_and_rerank_results` from src/LightRAG/pgvector_client.py.
Python `list.sort(reverse=True)` is a stable descending sort. -/
def merge_and_rerank_results (semantic_results keyword_results : List SearchResult)
    (top_k : ℕ) : List MergedResult :=
  (((keyword_results.foldl upsertKw
      (semantic_results.foldl upsertSem [])).map scoreEntry).mergeSort
    (fun a b => decide (b.score ≤ a.score))).take top_k

/-- The hybrid branch of `query_embeddings` (pgvector_client.py lines
230-237): both searches run over their fetched rows, then fusion. -/
def hybrid_query_embeddings (semRows : List SemRow) (kwRows : List KwRow)
    (top_k : ℕ) : List MergedResult :=
  merge_and_rerank_results (semantic_search semRows) (keyword_search kwRows) top_k

/-- The fused score as the specification section 4.4 words it: the 70/30
combination of the raw (un-boosted) scores, with the feedback boost applied
exactly once.  Stated from the spec for comparison with the implementation. -/
def fuse_once_spec_score (rawSem rawKw : ℚ) (fc : ℕ) : ℚ :=
  applyBoost (7/10 * rawSem + 3/10 * rawKw) fc

/-- Lookup of the semantic input score of a record id; a record missing from
the semantic list contributes 0.0 (specification section 4.4). -/
def semScoreOf (sem : List SearchResult) (i : String) : ℚ :=
  match sem.find? (fun r => r.id = i) with
  | some r => r.score
  | none => 0

/-- Lookup of the keyword input score of a record id; a record missing from
the keyword list contributes 0.0. -/
def kwScoreOf (kw : List SearchResult) (i : String) : ℚ :=
  match kw.find? (fun r => r.id = i) with
  | some r => r.score
  | none => 0

/-- The feedback count the fusion step uses for a record id: the one carried
by the semantic entry when present, else by the keyword entry. -/
def fcOf (sem kw : List SearchResult) (i : String) : ℕ :=
  match sem.find? (fun r => r.id = i) with
  | some r => r.feedback_count
  | none =>
    match kw.find? (fun r => r.id = i) with
    | some r => r.feedback_count
    | none => 0

/-! ## Feedback recording (src/LightRAG/pgvector_client.py record_feedback) -/

/-- A row of the embeddings table as touched by `record_feedback`. -/
structure EmbRow where
  id : String
  relevance_score : ℚ
  feedback_count : ℕ
deriving DecidableEq

/-- A row of the append-only feedback table. -/
structure FeedbackRow where
  embedding_id : String
  query : Str
  is_relevant : Bool
  user_id : Option String
  comment : Option Str
deriving DecidableEq

/-- The database state seen by `record_feedback`. -/
structure DBState where
  embeddings : List EmbRow
  feedback : List FeedbackRow
deriving DecidableEq

/-- Failure oracle for one `record_feedback` call: which step, if any,
fails first. -/
inductive RFOutcome where
  | connectFail
  | insertFail
  | updateFail
  | commitFail
  | noFail
deriving DecidableEq

/-- The score adjustment `0.1 if is_relevant else -0.1`. -/
def feedbackAdjust (is_relevant : Bool) : ℚ := if is_relevant then 1/10 else -(1/10)

/-- The SQL clamp `GREATEST(0.1, LEAST(2.0, x))`. -/
def clampScore (x : ℚ) : ℚ := pyMax (1/10) (pyMin 2 x)

/-- The UPDATE applied to the target embedding row. -/
def updateEmbRow (adj : ℚ) (e : EmbRow) : EmbRow :=
  { e with relevance_score := clampScore (e.relevance_score + adj),
           feedback_count := e.feedback_count + 1 }

/-- `record_feedback` from src/LightRAG/pgvector_client.py over an explicit
database state and a failure oracle.  The connection is obtained before the
try block, so a connection failure escapes as an exception; a failure of the
insert, the update or the commit is rolled back inside the except branch and
reported as `false`.  The feedback insert references the embeddings table
through a foreign key, so an unknown embedding id makes the insert fail. -/
def record_feedback (st : DBState) (outcome : RFOutcome) (embedding_id : String)
    (query : Str) (is_relevant : Bool) (user_id : Option String)
    (comment : Option Str) : Except String (DBState × Bool) :=
  match outcome with
  | RFOutcome.connectFail => Except.error "OperationalError: connection failed"
  | RFOutcome.insertFail => Except.ok (st, false)
  | RFOutcome.updateFail => Except.ok (st, false)
  | RFOutcome.commitFail => Except.ok (st, false)
  | RFOutcome.noFail =>
    if st.embeddings.any (fun e => e.id = embedding_id) then
      Except.ok
        ({ embeddings := st.embeddings.map (fun e =>
             if e.id = embedding_id then updateEmbRow (feedbackAdjust is_relevant) e
             else e),
           feedback := st.feedback ++
             [⟨embedding_id, query, is_relevant, user_id, comment⟩] }, true)
    else Except.ok (st, false)

/-- The relevance/count state of one embedding record after a sequence of
feedback judgments applied through the `record_feedback` UPDATE. -/
def feedbackRun (e : EmbRow) (ops : List Bool) : EmbRow :=
  ops.foldl (fun r rel => updateEmbRow (feedbackAdjust rel) r) e

/-! ## Retrieval agent (src/LightRAG/rag_agent.py) -/

/-- A result dictionary returned by the knowledge base, duck-typed in the
source: keys may be missing, and a list entry may even be a bare string.
The `topic` field stands for `metadata.topic`. -/
structure KBRecord where
  text : Option Str
  score : Option ℚ
  id : Option String
  topic : Option Str
  source : Option String
deriving DecidableEq

/-- One entry of the knowledge-base result list. -/
inductive KBItem where
  | dict (r : KBRecord)
  | str (s : Str)
deriving DecidableEq

/-- A formatted result returned by the agent. -/
structure FormattedResult where
  text : Str
  score : ℚ
  id : Option String
  topic : Str
  source : String
deriving DecidableEq

/-- `QueryParam` from src/LightRAG/rag_agent.py. -/
structure QueryParam where
  mode : String
  topic : Option String
  max_results : ℕ
  threshold : ℚ
  use_feedback : Bool
deriving DecidableEq

/-- The stop-word set of `_extract_keywords`. -/
def agentStopWords : List Str :=
  (["the", "a", "an", "and", "or", "but", "is", "are", "was",
    "were", "be", "been", "being", "in", "on", "at", "to", "for",
    "with", "by", "about", "like", "through", "over", "before",
    "after", "between", "under", "above", "of", "from"].map String.toList)

/-- `_extract_keywords` from src/LightRAG/rag_agent.py with its default of
at most 5 keywords: lower-case word runs, stop words and short tokens
dropped, stably sorted by length descending, truncated. -/
def extract_keywords (text : Str) : List Str :=
  let words := wordRuns (text.map Char.toLower)
  let keywords := words.filter (fun w => w ∉ agentStopWords ∧ 2 < w.length)
  (keywords.mergeSort (fun a b => decide (b.length ≤ a.length))).take 5

/-- The ASCII apostrophe used in the system messages. -/
def quoteChar : Char := Char.ofNat 39

/-- The system result for an empty query. -/
def invalidQueryResult : FormattedResult :=
  { text := String.toList "Please provide a valid query.", score := 0, id := none,
    topic := [], source := "system" }

/-- The system result when no results survive filtering. -/
def noInfoResult (query_text : Str) (topic : Option String) : FormattedResult :=
  { text :=
      match topic with
      | some t =>
        String.toList "No information found on " ++ quoteChar :: query_text ++
          quoteChar :: String.toList " related to topic " ++ quoteChar ::
          t.toList ++ quoteChar :: ['.']
      | none =>
        String.toList "No information found on " ++ quoteChar :: query_text ++
          quoteChar :: ['.'],
    score := 0, id := none, topic := [], source := "system" }

/-- Formatting of one knowledge-base entry (rag_agent.py lines 98-117):
a dictionary without a text key is skipped, missing fields get defaults,
a bare string becomes a zero-score knowledge-base result. -/
def formatKBItem : KBItem → List FormattedResult
  | KBItem.dict r =>
    match r.text with
    | some t =>
      [{ text := t, score := r.score.getD 0, id := r.id,
         topic := (r.topic).getD [], source := (r.source).getD "knowledge_base" }]
    | none => []
  | KBItem.str s =>
    [{ text := s, score := 0, id := none, topic := [], source := "knowledge_base" }]

/-- The knowledge-base interface: query text, keywords (`none` outside
hybrid mode), topic filter, top_k and mode. -/
abbrev KBFun := Str → Option (List Str) → Option String → ℕ → String → List KBItem

/-- The threshold post-filter of `LightRAGAgent.query` (rag_agent.py lines
119-121): applied to the already fused and formatted results, and only
when the threshold is positive. -/
def threshold_filter (threshold : ℚ) (formatted : List FormattedResult) :
    List FormattedResult :=
  if 0 < threshold then formatted.filter (fun r => decide (threshold ≤ r.score))
  else formatted

/-- The tail of `LightRAGAgent.query` (rag_agent.py lines 123-141): an empty
filtered list is replaced by the no-information system result, otherwise the
results are re-ranked by score descending (`_rerank_results`). -/
def finalize_results (query_text : Str) (topic : Option String)
    (filtered : List FormattedResult) : List FormattedResult :=
  if filtered = [] then [noInfoResult query_text topic]
  else filtered.mergeSort (fun a b => decide (b.score ≤ a.score))

/-- `LightRAGAgent.query` from src/LightRAG/rag_agent.py over an explicit
knowledge base; the second component counts the calls to its
`query_embeddings`.  An empty or whitespace-only query short-circuits;
otherwise the knowledge base is queried once, results are formatted,
filtered by the threshold when it is positive, replaced by a system result
when nothing survives, and finally re-ranked by score descending. -/
def agent_query (kb : KBFun) (query_text : Str) (param : QueryParam) :
    List FormattedResult × ℕ :=
  if pyStrip query_text = [] then ([invalidQueryResult], 0)
  else
    let keywords :=
      if param.mode = "hybrid" then some (extract_keywords query_text) else none
    let results := kb query_text keywords param.topic param.max_results param.mode
    (finalize_results query_text param.topic
      (threshold_filter param.threshold (results.flatMap formatKBItem)), 1)

/-! ## Ingestion pipeline: re-chunking (src/LightRAG/ingest_pipeline.py) -/

/-- The metadata attached to chunk embeddings by the re-chunking pipeline. -/
structure EmbMeta where
  transcript_id : String
  topic : Option String
  source : Option String
  chunk_index : ℕ
  chunk_count : ℕ
  chunking_strategy : String
  user_id : Option String
  rechunked : Bool
deriving DecidableEq

/-- A stored chunk embedding. -/
structure IndexRow where
  rowId : ℕ
  text : Str
  metadata : EmbMeta
deriving DecidableEq

/-- The embeddings index: a fresh-id counter and the stored rows. -/
structure IndexState where
  nextId : ℕ
  rows : List IndexRow
deriving DecidableEq

/-- `store_embedding`: append a row under a fresh id. -/
def store_embedding (idx : IndexState) (text : Str) (meta : EmbMeta) : IndexState :=
  { nextId := idx.nextId + 1, rows := idx.rows ++ [⟨idx.nextId, text, meta⟩] }

/-- Modelled from the spec: `deleteByMetadata(filterMap)` of section 4.3,
at the call-site filter on the transcript id.  The method
`delete_embeddings_by_metadata` is called by the pipeline and exercised by
the tests but absent from src/LightRAG/pgvector_client.py, so it is
modelled from the specification: delete every record whose metadata
matches the filter. -/
def delete_embeddings_by_metadata (idx : IndexState) (tid : String) : IndexState :=
  { idx with rows := idx.rows.filter (fun r => r.metadata.transcript_id ≠ tid) }

/-- A row of the transcripts table. -/
structure TranscriptRow where
  id : String
  content : Str
  user_id : Option String
  tags : List String
  file_path : Option String
  is_processed : Bool
  updated_at : Option ℕ
deriving DecidableEq

/-- `rechunk_transcript` from src/LightRAG/ingest_pipeline.py over explicit
table and index states: look the transcript up, fail on a missing row or
empty content, delete the old embeddings, re-chunk the stored content
(`max_chars_per_chunk` keeps its default 2000), store the new embeddings,
then mark the transcript processed with a fresh `updated_at`. -/
def rechunk_transcript (table : List TranscriptRow) (idx : IndexState)
    (transcript_id : String) (chunk_size chunk_overlap : ℕ)
    (chunking_strategy : String) (now : ℕ) :
    Bool × List TranscriptRow × IndexState :=
  match table.find? (fun t => t.id = transcript_id) with
  | none => (false, table, idx)
  | some tr =>
    if tr.content = [] then (false, table, idx)
    else
      let idx1 := delete_embeddings_by_metadata idx transcript_id
      match chunk_transcript tr.content chunk_size chunk_overlap chunking_strategy 2000 with
      | Except.error _ => (false, table, idx1)
      | Except.ok chunks =>
        let idx2 := (chunks.enum).foldl (fun st ic =>
          store_embedding st ic.2
            { transcript_id := transcript_id, topic := tr.tags.head?,
              source := tr.file_path, chunk_index := ic.1,
              chunk_count := chunks.length, chunking_strategy := chunking_strategy,
              user_id := tr.user_id, rechunked := true }) idx1
        let table1 := table.map (fun t =>
          if t.id = transcript_id then
            { t with updated_at := some now, is_processed := true }
          else t)
        (true, table1, idx2)

/-- Verification predicate: a chunk is within the bound, or consists
entirely of non-whitespace characters (a single unbreakable word). -/
def ChunkOk (maxL : ℕ) (s : Str) : Prop :=
  s.length ≤ maxL ∨ ∀ c ∈ s, isPyWs c = false

/-! ## Lemmas: the chunker never exceeds the bound except on single words -/

theorem pyMin_eq_min (a b : ℚ) : pyMin a b = min a b := (min_def a b).symm

theorem pyMax_eq_max (a b : ℚ) : pyMax a b = max a b := by
  unfold pyMax
  rcases le_total a b with h | h
  · rw [if_pos h, max_eq_right h]
  · by_cases he : a ≤ b
    · rw [if_pos he, max_eq_right he]
    · rw [if_neg he, max_eq_left h]

theorem except_map_ok {α β : Type} (f : α → β) (e : Except String α) (b : β)
    (h : e.map f = Except.ok b) : ∃ a, e = Except.ok a ∧ b = f a := by
  cases e with
  | error s => simp [Except.map] at h
  | ok a =>
    refine ⟨a, rfl, ?_⟩
    simpa [Except.map] using h.symm

theorem pySplitGo_noWs (s : Str) : ∀ (cur : Str),
    (∀ c ∈ cur, isPyWs c = false) →
    ∀ w ∈ pySplitGo cur s, ∀ c ∈ w, isPyWs c = false := by
  induction s with
  | nil =>
    intro cur hcur w hw
    rw [pySplitGo] at hw
    split at hw
    · simp at hw
    · simp at hw
      subst hw
      intro c hc
      exact hcur c (by simpa using hc)
  | cons a rest ih =>
    intro cur hcur w hw
    rw [pySplitGo] at hw
    by_cases ha : isPyWs a = true
    · rw [if_pos ha] at hw
      split at hw
      · exact ih [] (by simp) w hw
      · rcases List.mem_cons.mp hw with hw1 | hw1
        · subst hw1
          intro c hc
          exact hcur c (by simpa using hc)
        · exact ih [] (by simp) w hw1
    · rw [if_neg ha] at hw
      refine ih (a :: cur) ?_ w hw
      intro c hc
      rcases List.mem_cons.mp hc with hc1 | hc1
      · subst hc1
        simpa using ha
      · exact hcur c hc1

theorem length_joinWithSpace_le (cur p : Str) (maxL : ℕ)
    (h : cur.length + p.length + 1 ≤ maxL) :
    (joinWithSpace cur p).length ≤ maxL := by
  unfold joinWithSpace
  split
  · omega
  · simp only [List.length_append, List.length_cons]
    omega

theorem wordLoop_ok (maxL : ℕ) (words : List Str) :
    ∀ (chunks : List Str) (cur : Str),
    (∀ x ∈ chunks, ChunkOk maxL x) → ChunkOk maxL cur →
    (∀ w ∈ words, ∀ c ∈ w, isPyWs c = false) →
    (∀ x ∈ (wordLoop maxL words chunks cur).1, ChunkOk maxL x) ∧
      ChunkOk maxL (wordLoop maxL words chunks cur).2 := by
  induction words with
  | nil =>
    intro chunks cur hc hcur _
    exact ⟨hc, hcur⟩
  | cons w rest ih =>
    intro chunks cur hc hcur hw
    rw [wordLoop]
    split
    · next hle =>
      exact ih chunks (joinWithSpace cur w) hc
        (Or.inl (length_joinWithSpace_le _ _ _ hle))
        (fun v hv => hw v (List.mem_cons_of_mem _ hv))
    · refine ih (chunks ++ [cur]) w ?_ ?_ (fun v hv => hw v (List.mem_cons_of_mem _ hv))
      · intro x hx
        rcases List.mem_append.mp hx with h1 | h1
        · exact hc x h1
        · simp at h1
          subst h1
          exact hcur
      · exact Or.inr (hw w (List.mem_cons_self _ _))

theorem sentLoop_ok (maxL : ℕ) (sents : List Str) :
    ∀ (chunks : List Str) (cur : Str),
    (∀ x ∈ chunks, ChunkOk maxL x) → ChunkOk maxL cur →
    (∀ x ∈ (sentLoop maxL sents chunks cur).1, ChunkOk maxL x) ∧
      ChunkOk maxL (sentLoop maxL sents chunks cur).2 := by
  induction sents with
  | nil =>
    intro chunks cur hc hcur
    exact ⟨hc, hcur⟩
  | cons s rest ih =>
    intro chunks cur hc hcur
    rw [sentLoop]
    have hchunks1 : ∀ x ∈ (if cur = [] then chunks else chunks ++ [cur]), ChunkOk maxL x := by
      split
      · exact hc
      · intro x hx
        rcases List.mem_append.mp hx with h1 | h1
        · exact hc x h1
        · simp at h1
          subst h1
          exact hcur
    split
    · next hle =>
      exact ih chunks (joinWithSpace cur s) hc (Or.inl (length_joinWithSpace_le _ _ _ hle))
    · split
      · next hs =>
        have hwl := wordLoop_ok maxL (pySplit s)
          (if cur = [] then chunks else chunks ++ [cur]) [] hchunks1
          (Or.inl (by simp))
          (fun w hw => pySplitGo_noWs s [] (by simp) w hw)
        exact ih _ _ hwl.1 hwl.2
      · next hs =>
        exact ih _ _ hchunks1 (Or.inl (by omega))

theorem split_by_max_length_ok (text : Str) (maxL : ℕ) :
    ∀ x ∈ split_by_max_length text maxL, ChunkOk maxL x := by
  intro x hx
  unfold split_by_max_length at hx
  split at hx
  · next hle =>
    simp at hx
    subst hx
    exact Or.inl hle
  · have h := sentLoop_ok maxL (split_into_sentences text) [] [] (by simp) (Or.inl (by simp))
    split at hx
    · exact h.1 x hx
    · rcases List.mem_append.mp hx with hmem | hmem
      · exact h.1 x hmem
      · simp at hmem
        subst hmem
        exact h.2

theorem enforceMax_ok (maxL : ℕ) (c0 x : Str) (hx : x ∈ enforceMax maxL c0) :
    ChunkOk maxL x := by
  unfold enforceMax at hx
  split at hx
  · exact split_by_max_length_ok c0 maxL x hx
  · next hle =>
    simp at hx
    subst hx
    exact Or.inl (by omega)

/-- C1 (amended): for every text, strategy and positive `maxChars`, every
chunk returned by `chunk_transcript` either has length at most `maxChars`
or consists of a single whitespace-free word; an oversized word is emitted
whole because the code has no byte-level cut. -/
theorem chunk_transcript_bounded (text : Str) (cs ov maxL : ℕ) (strategy : String)
    (chunks : List Str) (hmax : 0 < maxL)
    (h : chunk_transcript text cs ov strategy maxL = Except.ok chunks) :
    ∀ c ∈ chunks, c.length ≤ maxL ∨ ∀ ch ∈ c, isPyWs ch = false := by
  simp only [chunk_transcript] at h
  split at h
  · have hnil : chunks = [] := by simpa using h.symm
    subst hnil
    intro c hc
    simp at hc
  · obtain ⟨cs0, _, hchunks⟩ := except_map_ok _ _ _ h
    subst hchunks
    intro c hc
    obtain ⟨c0, _, hcm⟩ := List.mem_flatMap.mp hc
    exact enforceMax_ok maxL c0 c hcm

/-- C1 counterexample to the claim as stated: with `maxChars = 3`, the text
`aaaaa` is a single word longer than the bound, and `chunk_transcript`
returns it whole (length 5 > 3); no byte-level cut is applied. -/
theorem chunk_transcript_oversized_word :
    chunk_transcript (String.toList "aaaaa") 5 1 "sentence" 3 =
      Except.ok [[], [], String.toList "aaaaa"] ∧
    ¬ (String.toList "aaaaa").length ≤ 3 := by
  constructor
  · rfl
  · decide

/-- Witness for `chunk_transcript_bounded` at a concrete input. -/
theorem chunk_transcript_bounded_witness :
    0 < 3 ∧
    (∀ c ∈ [([] : Str), [], String.toList "aaaaa"],
      c.length ≤ 3 ∨ ∀ ch ∈ c, isPyWs ch = false) :=
  ⟨by decide,
   chunk_transcript_bounded (String.toList "aaaaa") 5 1 3 "sentence" _
     (by decide) (by rfl)⟩

/-! ## C7: window stepping of the sentence strategy -/

/-- C7 counterexample to the claim as stated: at `unitSize = 1`,
`overlap = 1` the code uses step `chunk_size - overlap = 0` with no
`max(1, ...)` guard, so `range` raises `ValueError` instead of advancing
by `max(1, 0) = 1`. -/
theorem chunk_transcript_zero_step :
    chunk_transcript (String.toList "One. Two.") 1 1 "sentence" 2000 =
      Except.error "ValueError: range arg 3 must not be zero" := by
  rfl

/-- C7 (amended): for `overlap < unitSize` the window start advances by
exactly `unitSize - overlap ≥ 1` sentences per step and the sentence
strategy returns normally; the guard `max(1, unitSize - overlap)` of the
claim is not in the code, so the case `overlap ≥ unitSize` is excluded. -/
theorem chunk_transcript_step_progress (text : Str) (cs ov maxL : ℕ)
    (h1 : 0 < cs) (h2 : ov < cs) :
    1 ≤ cs - ov ∧
    (∃ chunks, chunk_transcript text cs ov "sentence" maxL = Except.ok chunks) ∧
    (∀ l, pyRangeIdx (split_into_sentences text).length ((cs : ℤ) - (ov : ℤ)) =
        Except.ok l →
      ∀ i, (hi : i < l.length) → l.get ⟨i, hi⟩ = i * (cs - ov)) := by
  have hstep0 : ¬ ((cs : ℤ) - (ov : ℤ) = 0) := by omega
  have hstepneg : ¬ ((cs : ℤ) - (ov : ℤ) < 0) := by omega
  refine ⟨by omega, ?_, ?_⟩
  · by_cases htext : text = []
    · exact ⟨[], by simp [chunk_transcript, htext]⟩
    · simp only [chunk_transcript, if_neg htext]
      rw [if_pos trivial]
      rw [pyRangeIdx, if_neg hstep0, if_neg hstepneg]
      exact ⟨_, rfl⟩
  · intro l hl i hi
    rw [pyRangeIdx, if_neg hstep0, if_neg hstepneg] at hl
    have hl2 : l = (List.range (((split_into_sentences text).length +
        ((cs : ℤ) - (ov : ℤ)).toNat - 1) / ((cs : ℤ) - (ov : ℤ)).toNat)).map
        (fun k => k * ((cs : ℤ) - (ov : ℤ)).toNat) := by
      simpa using hl.symm
    subst hl2
    have htn : ((cs : ℤ) - (ov : ℤ)).toNat = cs - ov := by omega
    simp [List.get_eq_getElem, htn]

/-- Witness for `chunk_transcript_step_progress` at a concrete input. -/
theorem chunk_transcript_step_progress_witness :
    0 < 2 ∧ 1 < 2 ∧
    (1 ≤ 2 - 1 ∧
     (∃ chunks, chunk_transcript (String.toList "A. B.") 2 1 "sentence" 2000 =
        Except.ok chunks) ∧
     (∀ l, pyRangeIdx (split_into_sentences (String.toList "A. B.")).length
          ((2 : ℤ) - (1 : ℤ)) = Except.ok l →
       ∀ i, (hi : i < l.length) → l.get ⟨i, hi⟩ = i * (2 - 1))) :=
  ⟨by decide, by decide,
   chunk_transcript_step_progress (String.toList "A. B.") 2 1 2000
     (by decide) (by decide)⟩

/-! ## C6: the feedback nudge keeps the relevance score within [0.1, 2.0] -/

theorem clampScore_bounds (x : ℚ) : 1/10 ≤ clampScore x ∧ clampScore x ≤ 2 := by
  unfold clampScore
  rw [pyMax_eq_max, pyMin_eq_min]
  exact ⟨le_max_left _ _, max_le (by norm_num) (min_le_left _ _)⟩

theorem clampScore_id (x : ℚ) (h1 : 1/10 ≤ x) (h2 : x ≤ 2) : clampScore x = x := by
  unfold clampScore
  rw [pyMax_eq_max, pyMin_eq_min, min_eq_right h2, max_eq_right h1]

theorem feedbackRun_range (ops : List Bool) : ∀ (e : EmbRow),
    1/10 ≤ e.relevance_score → e.relevance_score ≤ 2 →
    1/10 ≤ (feedbackRun e ops).relevance_score ∧
      (feedbackRun e ops).relevance_score ≤ 2 := by
  induction ops with
  | nil =>
    intro e h1 h2
    exact ⟨h1, h2⟩
  | cons op rest ih =>
    intro e _ _
    have hstep : feedbackRun e (op :: rest) =
        feedbackRun (updateEmbRow (feedbackAdjust op) e) rest := rfl
    rw [hstep]
    exact ih _ (clampScore_bounds _).1 (clampScore_bounds _).2

/-- C6: the feedback UPDATE adds plus-or-minus 0.1 clamped to [0.1, 2.0]
(exactly the sum when it already lies in the range) and increments the
feedback counter by one; consequently a record whose relevance score starts
in the range keeps it there over any sequence of feedback operations. -/
theorem record_feedback_score_range :
    (∀ (e : EmbRow) (rel : Bool),
      (updateEmbRow (feedbackAdjust rel) e).feedback_count = e.feedback_count + 1 ∧
      feedbackAdjust rel = (if rel then 1/10 else -(1/10)) ∧
      1/10 ≤ (updateEmbRow (feedbackAdjust rel) e).relevance_score ∧
      (updateEmbRow (feedbackAdjust rel) e).relevance_score ≤ 2 ∧
      (1/10 ≤ e.relevance_score + feedbackAdjust rel →
        e.relevance_score + feedbackAdjust rel ≤ 2 →
        (updateEmbRow (feedbackAdjust rel) e).relevance_score =
          e.relevance_score + feedbackAdjust rel)) ∧
    (∀ (e : EmbRow) (ops : List Bool),
      1/10 ≤ e.relevance_score → e.relevance_score ≤ 2 →
      1/10 ≤ (feedbackRun e ops).relevance_score ∧
        (feedbackRun e ops).relevance_score ≤ 2) := by
  constructor
  · intro e rel
    exact ⟨rfl, rfl, (clampScore_bounds _).1, (clampScore_bounds _).2,
      fun h1 h2 => clampScore_id _ h1 h2⟩
  · intro e ops
    exact feedbackRun_range ops e

/-- Witness for `record_feedback_score_range` at a concrete record. -/
theorem record_feedback_score_range_witness :
    (1/10 : ℚ) ≤ 1 ∧ (1 : ℚ) ≤ 2 ∧
    (1/10 ≤ (feedbackRun ⟨"e1", 1, 0⟩ [true, true, false]).relevance_score ∧
      (feedbackRun ⟨"e1", 1, 0⟩ [true, true, false]).relevance_score ≤ 2) :=
  ⟨by norm_num, by norm_num,
   record_feedback_score_range.2 ⟨"e1", 1, 0⟩ [true, true, false]
     (by norm_num) (by norm_num)⟩

/-! ## C8: monotonicity and cap of the feedback boost -/

/-- C8 counterexample to the claim as stated: for a fixed negative raw
score, growing the feedback count strictly lowers the boosted final score,
so monotonicity does not hold for every fixed raw score. -/
theorem applyBoost_not_monotone :
    (0 : ℕ) ≤ 10 ∧ applyBoost (-1) 10 < applyBoost (-1) 0 := by
  constructor
  · decide
  · norm_num [applyBoost, feedbackBoost, pyMin]

/-- C8 (amended): for every nonnegative raw score the boosted final score is
monotone in the feedback count, and the boost factor never exceeds 0.2. -/
theorem applyBoost_monotone_cap :
    (∀ (raw : ℚ) (c1 c2 : ℕ), 0 ≤ raw → c1 ≤ c2 →
      applyBoost raw c1 ≤ applyBoost raw c2) ∧
    (∀ c : ℕ, feedbackBoost c ≤ 1/5) := by
  constructor
  · intro raw c1 c2 hraw hc
    unfold applyBoost
    rw [pyMin_eq_min, pyMin_eq_min]
    refine min_le_min ?_ le_rfl
    refine mul_le_mul_of_nonneg_left ?_ hraw
    refine add_le_add_left ?_ 1
    unfold feedbackBoost
    rw [pyMin_eq_min, pyMin_eq_min]
    refine min_le_min ?_ le_rfl
    have hcq : (c1 : ℚ) ≤ c2 := by exact_mod_cast hc
    linarith
  · intro c
    unfold feedbackBoost
    rw [pyMin_eq_min]
    exact min_le_right _ _

/-- Witness for `applyBoost_monotone_cap` at concrete values. -/
theorem applyBoost_monotone_cap_witness :
    (0 : ℚ) ≤ 1/2 ∧ (3 : ℕ) ≤ 7 ∧ applyBoost (1/2) 3 ≤ applyBoost (1/2) 7 :=
  ⟨by norm_num, by decide,
   applyBoost_monotone_cap.1 (1/2) 3 7 (by norm_num) (by decide)⟩

/-! ## C10: atomicity of record_feedback -/

/-- C10 counterexample to the claim as stated: the connection is obtained
before the try block, so a connection failure raises to the caller instead
of returning False. -/
theorem record_feedback_raises_on_connect :
    record_feedback ⟨[⟨"e1", 1, 0⟩], []⟩ RFOutcome.connectFail "e1" [] true
      none none = Except.error "OperationalError: connection failed" := rfl

/-- C10 (amended): once a connection is obtained `record_feedback` never
raises; any failure of the insert, the update or the commit rolls the
transaction back, leaving the database unchanged and returning False; it
returns True exactly when the feedback row was appended and the target
embedding row was nudged, which requires the whole transaction to commit. -/
theorem record_feedback_atomic (st : DBState) (o : RFOutcome) (eid : String)
    (q : Str) (rel : Bool) (uid : Option String) (cm : Option Str) :
    (o ≠ RFOutcome.connectFail →
      ∃ p, record_feedback st o eid q rel uid cm = Except.ok p) ∧
    (∀ st1, record_feedback st o eid q rel uid cm = Except.ok (st1, false) →
      st1 = st) ∧
    (∀ st1, record_feedback st o eid q rel uid cm = Except.ok (st1, true) →
      o = RFOutcome.noFail ∧
      st1.feedback = st.feedback ++ [⟨eid, q, rel, uid, cm⟩] ∧
      (∃ e ∈ st.embeddings, e.id = eid) ∧
      st1.embeddings = st.embeddings.map (fun e =>
        if e.id = eid then updateEmbRow (feedbackAdjust rel) e else e)) := by
  cases o with
  | connectFail =>
    refine ⟨fun h => absurd rfl h, ?_, ?_⟩
    · intro st1 h
      simp [record_feedback] at h
    · intro st1 h
      simp [record_feedback] at h
  | insertFail =>
    refine ⟨fun _ => ⟨(st, false), rfl⟩, ?_, ?_⟩
    · intro st1 h
      simp [record_feedback] at h
      exact h.symm
    · intro st1 h
      simp [record_feedback] at h
  | updateFail =>
    refine ⟨fun _ => ⟨(st, false), rfl⟩, ?_, ?_⟩
    · intro st1 h
      simp [record_feedback] at h
      exact h.symm
    · intro st1 h
      simp [record_feedback] at h
  | commitFail =>
    refine ⟨fun _ => ⟨(st, false), rfl⟩, ?_, ?_⟩
    · intro st1 h
      simp [record_feedback] at h
      exact h.symm
    · intro st1 h
      simp [record_feedback] at h
  | noFail =>
    by_cases hany : st.embeddings.any (fun e => e.id = eid) = true
    · refine ⟨fun _ => ?_, ?_, ?_⟩
      · unfold record_feedback
        rw [if_pos hany]
        exact ⟨_, rfl⟩
      · intro st1 h
        unfold record_feedback at h
        rw [if_pos hany] at h
        simp at h
      · intro st1 h
        unfold record_feedback at h
        rw [if_pos hany] at h
        simp only [Except.ok.injEq, Prod.mk.injEq] at h
        obtain ⟨hst, -⟩ := h
        subst hst
        refine ⟨rfl, rfl, ?_, rfl⟩
        simpa using hany
    · refine ⟨fun _ => ?_, ?_, ?_⟩
      · refine ⟨(st, false), ?_⟩
        unfold record_feedback
        rw [if_neg hany]
      · intro st1 h
        unfold record_feedback at h
        rw [if_neg hany] at h
        simp at h
        exact h.symm
      · intro st1 h
        unfold record_feedback at h
        rw [if_neg hany] at h
        simp at h

/-- Witness for `record_feedback_atomic` at a concrete state and outcome. -/
theorem record_feedback_atomic_witness :
    RFOutcome.insertFail ≠ RFOutcome.connectFail ∧
    (∃ p, record_feedback ⟨[⟨"e1", 1, 0⟩], []⟩ RFOutcome.insertFail "e1" []
      true none none = Except.ok p) :=
  ⟨by decide,
   (record_feedback_atomic ⟨[⟨"e1", 1, 0⟩], []⟩ RFOutcome.insertFail "e1" []
     true none none).1 (by decide)⟩

/-! ## C4: empty queries short-circuit the agent -/

theorem pyStrip_nil_of_ws (q : Str) (h : ∀ c ∈ q, isPyWs c = true) :
    pyStrip q = [] := by
  unfold pyStrip
  have h1 : q.dropWhile isPyWs = [] := List.dropWhile_eq_nil_iff.mpr h
  rw [h1]
  simp

/-- C4: an empty or whitespace-only query returns exactly one result, whose
source is system and whose score is 0.0, and the knowledge base is called
zero times. -/
theorem agent_query_empty_shortcircuit (kb : KBFun) (q : Str) (param : QueryParam)
    (h : ∀ c ∈ q, isPyWs c = true) :
    (agent_query kb q param).1.length = 1 ∧
    (∀ r ∈ (agent_query kb q param).1, r.source = "system" ∧ r.score = 0) ∧
    (agent_query kb q param).2 = 0 := by
  have hq : pyStrip q = [] := pyStrip_nil_of_ws q h
  unfold agent_query
  rw [if_pos hq]
  refine ⟨rfl, ?_, rfl⟩
  intro r hr
  simp at hr
  subst hr
  exact ⟨rfl, rfl⟩

/-- Witness for `agent_query_empty_shortcircuit` on a whitespace query and a
concrete knowledge base. -/
theorem agent_query_empty_shortcircuit_witness :
    (∀ c ∈ String.toList "  ", isPyWs c = true) ∧
    ((agent_query (fun _ _ _ _ _ => []) (String.toList "  ")
        ⟨"hybrid", none, 5, 7/10, true⟩).1.length = 1 ∧
      (∀ r ∈ (agent_query (fun _ _ _ _ _ => []) (String.toList "  ")
          ⟨"hybrid", none, 5, 7/10, true⟩).1, r.source = "system" ∧ r.score = 0) ∧
      (agent_query (fun _ _ _ _ _ => []) (String.toList "  ")
        ⟨"hybrid", none, 5, 7/10, true⟩).2 = 0) :=
  ⟨by decide,
   agent_query_empty_shortcircuit (fun _ _ _ _ _ => []) (String.toList "  ")
     ⟨"hybrid", none, 5, 7/10, true⟩ (by decide)⟩

/-! ## C9: raising the threshold never yields more results -/

theorem threshold_filter_length_antitone (t1 t2 : ℚ) (l : List FormattedResult)
    (h : t1 ≤ t2) :
    (threshold_filter t2 l).length ≤ (threshold_filter t1 l).length := by
  unfold threshold_filter
  by_cases h1 : 0 < t1
  · rw [if_pos h1, if_pos (lt_of_lt_of_le h1 h)]
    rw [← List.countP_eq_length_filter, ← List.countP_eq_length_filter]
    refine List.countP_mono_left ?_
    intro r _ hr
    simp only [decide_eq_true_eq] at hr ⊢
    linarith
  · rw [if_neg h1]
    by_cases h2 : 0 < t2
    · rw [if_pos h2]
      exact List.length_filter_le _ _
    · rw [if_neg h2]

theorem finalize_results_length_mono (q : Str) (tp : Option String)
    (l1 l2 : List FormattedResult) (h : l2.length ≤ l1.length) :
    (finalize_results q tp l2).length ≤ (finalize_results q tp l1).length := by
  unfold finalize_results
  by_cases h2 : l2 = []
  · rw [if_pos h2]
    split
    · simp
    · next h1 =>
      have hp : 0 < l1.length := List.length_pos.mpr h1
      simpa [List.length_mergeSort] using hp
  · rw [if_neg h2]
    have h2len : 0 < l2.length := List.length_pos.mpr h2
    have h1ne : l1 ≠ [] := by
      intro he
      rw [he] at h
      simp at h
      exact h2 h
    rw [if_neg h1ne]
    simpa [List.length_mergeSort] using h

/-- C9: for a fixed knowledge base, query and other options, raising the
score threshold never increases the number of results the agent returns;
the filter runs on the already fused and formatted results. -/
theorem agent_query_threshold_antitone (kb : KBFun) (q : Str) (mode : String)
    (topic : Option String) (mr : ℕ) (uf : Bool) (t1 t2 : ℚ) (h : t1 ≤ t2) :
    (agent_query kb q ⟨mode, topic, mr, t2, uf⟩).1.length ≤
      (agent_query kb q ⟨mode, topic, mr, t1, uf⟩).1.length := by
  unfold agent_query
  split
  · exact le_rfl
  · exact finalize_results_length_mono q topic _ _
      (threshold_filter_length_antitone t1 t2 _ h)

/-- Witness for `agent_query_threshold_antitone` at concrete thresholds and
a concrete knowledge base. -/
theorem agent_query_threshold_antitone_witness :
    (1/2 : ℚ) ≤ 3/4 ∧
    (agent_query
        (fun _ _ _ _ _ =>
          [KBItem.dict ⟨some ['x'], some (3/5), some "i1", none, none⟩])
        (String.toList "hello") ⟨"hybrid", none, 5, 3/4, true⟩).1.length ≤
      (agent_query
        (fun _ _ _ _ _ =>
          [KBItem.dict ⟨some ['x'], some (3/5), some "i1", none, none⟩])
        (String.toList "hello") ⟨"hybrid", none, 5, 1/2, true⟩).1.length :=
  ⟨by norm_num,
   agent_query_threshold_antitone
     (fun _ _ _ _ _ =>
       [KBItem.dict ⟨some ['x'], some (3/5), some "i1", none, none⟩])
     (String.toList "hello") "hybrid" none 5 true (1/2) (3/4) (by norm_num)⟩

/-! ## C2: the feedback boost is applied twice in the hybrid pipeline -/

/-- C2 counterexample to the claim as stated: a record with raw semantic
score 0.5 and feedback count 10 comes out of the hybrid pipeline with score
0.504 (the boost is applied inside the semantic search and again at
fusion), while a single application to the raw combination gives 0.42. -/
theorem hybrid_boost_twice_counterexample :
    (hybrid_query_embeddings [⟨"a", ['t'], none, 1, 10, 1/2⟩] [] 5).map
      (fun r => r.score) = [63/125] ∧
    fuse_once_spec_score (1/2) 0 10 = 21/50 ∧
    ((63 : ℚ)/125) ≠ 21/50 := by
  refine ⟨?_, ?_, by norm_num⟩
  · norm_num [hybrid_query_embeddings, merge_and_rerank_results, semantic_search,
      keyword_search, upsertSem, scoreEntry, semEntry, applyBoost, feedbackBoost,
      pyMin, List.mergeSort]
  · norm_num [fuse_once_spec_score, applyBoost, feedbackBoost, pyMin]

/-- C2 (amended): in hybrid mode the fused score of a record with feedback
applies the boost twice, once inside the search and once more at fusion:
for a record found only by the semantic search the final score is
`applyBoost (0.7 * applyBoost raw fc + 0.3 * 0) fc`, not the
single application the specification prescribes. -/
theorem hybrid_boost_applied_twice (raw rs : ℚ) (fc : ℕ) (i : String)
    (txt : Str) (md : Option PgMeta) (k : ℕ) (hfc : 0 < fc) (hk : 0 < k) :
    (hybrid_query_embeddings [⟨i, txt, md, rs, fc, raw⟩] [] k).map
      (fun r => r.score) =
      [applyBoost (7/10 * applyBoost raw fc + 3/10 * 0) fc] := by
  cases k with
  | zero => omega
  | succ k =>
    unfold hybrid_query_embeddings merge_and_rerank_results semantic_search
      keyword_search
    simp [upsertSem, scoreEntry, semEntry, hfc, List.mergeSort]

/-- Witness for `hybrid_boost_applied_twice` at concrete values. -/
theorem hybrid_boost_applied_twice_witness :
    0 < 10 ∧ 0 < 5 ∧
    (hybrid_query_embeddings [⟨"a", ['t'], none, 1, 10, 1/2⟩] [] 5).map
      (fun r => r.score) =
      [applyBoost (7/10 * applyBoost (1/2) 10 + 3/10 * 0) 10] :=
  ⟨by decide, by decide,
   hybrid_boost_applied_twice (1/2) 1 10 "a" ['t'] none 5 (by decide) (by decide)⟩

/-! ## C5: re-chunking replaces the whole chunk set of a document -/

theorem foldl_store_rows (tid : String) (topic : Option String)
    (src : Option String) (cc : ℕ) (strat : String) (uid : Option String) :
    ∀ (l : List (ℕ × Str)) (st : IndexState),
    ∃ suffix,
      (l.foldl (fun s ic => store_embedding s ic.2
        { transcript_id := tid, topic := topic, source := src,
          chunk_index := ic.1, chunk_count := cc, chunking_strategy := strat,
          user_id := uid, rechunked := true }) st).rows = st.rows ++ suffix ∧
      suffix.map (fun r => r.text) = l.map (fun ic => ic.2) ∧
      (∀ r ∈ suffix, r.metadata.transcript_id = tid ∧
        r.metadata.rechunked = true) := by
  intro l
  induction l with
  | nil =>
    intro st
    exact ⟨[], by simp, by simp, by simp⟩
  | cons ic rest ih =>
    intro st
    obtain ⟨suffix, h1, h2, h3⟩ := ih
      (store_embedding st ic.2
        { transcript_id := tid, topic := topic, source := src,
          chunk_index := ic.1, chunk_count := cc, chunking_strategy := strat,
          user_id := uid, rechunked := true })
    refine ⟨⟨st.nextId, ic.2,
      { transcript_id := tid, topic := topic, source := src,
        chunk_index := ic.1, chunk_count := cc, chunking_strategy := strat,
        user_id := uid, rechunked := true }⟩ :: suffix, ?_, ?_, ?_⟩
    · rw [List.foldl_cons, h1]
      simp [store_embedding]
    · simp [h2]
    · intro r hr
      rcases List.mem_cons.mp hr with h | h
      · subst h
        exact ⟨rfl, rfl⟩
      · exact h3 r h

theorem find?_map_preserving (f : TranscriptRow → TranscriptRow)
    (hf : ∀ t, (f t).id = t.id) (tid : String) :
    ∀ (l : List TranscriptRow) (tr : TranscriptRow),
    l.find? (fun t => t.id = tid) = some tr →
    (l.map f).find? (fun t => t.id = tid) = some (f tr) := by
  intro l
  induction l with
  | nil =>
    intro tr h
    simp at h
  | cons a rest ih =>
    intro tr h
    by_cases ha : a.id = tid
    · rw [List.find?_cons_of_pos _ (by simpa using ha)] at h
      have : a = tr := by simpa using h
      subst this
      rw [List.map_cons, List.find?_cons_of_pos _ (by simp [hf, ha])]
    · rw [List.find?_cons_of_neg _ (by simpa using ha)] at h
      rw [List.map_cons, List.find?_cons_of_neg _ (by simp [hf, ha])]
      exact ih tr h

/-- C5 (spec-modelled delete): for a stored transcript with non-empty
content whose chunking succeeds, `rechunk_transcript` returns success, and
afterwards the rows carrying the transcript id are exactly the freshly
generated chunks in order (every one marked re-chunked): the old generation
is deleted before the new one is written, rows of other documents are
untouched, and the transcript row is marked processed with a fresh
`updated_at`. -/
theorem rechunk_replaces_generation (table : List TranscriptRow)
    (idx : IndexState) (tid : String) (cs ov now : ℕ) (strat : String)
    (tr : TranscriptRow) (chunks : List Str)
    (hfind : table.find? (fun t => t.id = tid) = some tr)
    (hcontent : tr.content ≠ [])
    (hchunks : chunk_transcript tr.content cs ov strat 2000 = Except.ok chunks) :
    (rechunk_transcript table idx tid cs ov strat now).1 = true ∧
    ((rechunk_transcript table idx tid cs ov strat now).2.2.rows.filter
        (fun r => r.metadata.transcript_id = tid)).map (fun r => r.text) =
      chunks ∧
    (∀ r ∈ (rechunk_transcript table idx tid cs ov strat now).2.2.rows,
      r.metadata.transcript_id = tid → r.metadata.rechunked = true) ∧
    ((rechunk_transcript table idx tid cs ov strat now).2.2.rows.filter
        (fun r => r.metadata.transcript_id ≠ tid)) =
      idx.rows.filter (fun r => r.metadata.transcript_id ≠ tid) ∧
    (rechunk_transcript table idx tid cs ov strat now).2.1.find?
        (fun t => t.id = tid) =
      some { tr with updated_at := some now, is_processed := true } := by
  have htrid : tr.id = tid := by
    have := List.find?_some hfind
    simpa using this
  unfold rechunk_transcript
  rw [hfind]
  dsimp only
  rw [if_neg hcontent, hchunks]
  dsimp only
  obtain ⟨suffix, h1, h2, h3⟩ := foldl_store_rows tid tr.tags.head? tr.file_path
    chunks.length strat tr.user_id chunks.enum
    (delete_embeddings_by_metadata idx tid)
  rw [h1]
  have hdel : (delete_embeddings_by_metadata idx tid).rows =
      idx.rows.filter (fun r => r.metadata.transcript_id ≠ tid) := rfl
  refine ⟨rfl, ?_, ?_, ?_, ?_⟩
  · rw [List.filter_append]
    have hleft : (delete_embeddings_by_metadata idx tid).rows.filter
        (fun r => r.metadata.transcript_id = tid) = [] := by
      rw [hdel, List.filter_eq_nil]
      intro a ha
      have := (List.mem_filter.mp ha).2
      simpa using this
    have hright : suffix.filter (fun r => r.metadata.transcript_id = tid) =
        suffix := by
      rw [List.filter_eq_self]
      intro a ha
      simpa using (h3 a ha).1
    rw [hleft, hright, List.nil_append, h2]
    simpa using List.enum_map_snd chunks
  · intro r hr hrt
    rcases List.mem_append.mp hr with hmem | hmem
    · exfalso
      have hm := (List.mem_filter.mp (by rwa [hdel] at hmem)).2
      simp at hm
      exact hm hrt
    · exact (h3 r hmem).2
  · rw [List.filter_append]
    have hleft : (delete_embeddings_by_metadata idx tid).rows.filter
        (fun r => r.metadata.transcript_id ≠ tid) =
        idx.rows.filter (fun r => r.metadata.transcript_id ≠ tid) := by
      rw [hdel, List.filter_eq_self]
      intro a ha
      exact (List.mem_filter.mp ha).2
    have hright : suffix.filter (fun r => r.metadata.transcript_id ≠ tid) = [] := by
      rw [List.filter_eq_nil]
      intro a ha
      simp [(h3 a ha).1]
    rw [hleft, hright, List.append_nil]
  · have := find?_map_preserving
      (fun t => if t.id = tid then { t with updated_at := some now, is_processed := true } else t)
      (by intro t; by_cases h : t.id = tid <;> simp [h]) tid table tr hfind
    simpa [htrid] using this

/-- Witness for `rechunk_replaces_generation` at a concrete table and index. -/
theorem rechunk_replaces_generation_witness :
    ([⟨"d1", String.toList "Hello world. Bye.", none, [], none, false, none⟩] :
        List TranscriptRow).find? (fun t => t.id = "d1") =
      some ⟨"d1", String.toList "Hello world. Bye.", none, [], none, false, none⟩ ∧
    String.toList "Hello world. Bye." ≠ [] ∧
    (rechunk_transcript
      [⟨"d1", String.toList "Hello world. Bye.", none, [], none, false, none⟩]
      ⟨7, [⟨0, ['o'], ⟨"d1", none, none, 0, 1, "sentence", none, false⟩⟩,
        ⟨1, ['x'], ⟨"d2", none, none, 0, 1, "sentence", none, false⟩⟩]⟩
      "d1" 5 1 "sentence" 42).1 = true :=
  ⟨by rfl, by decide,
   (rechunk_replaces_generation
     [⟨"d1", String.toList "Hello world. Bye.", none, [], none, false, none⟩]
     ⟨7, [⟨0, ['o'], ⟨"d1", none, none, 0, 1, "sentence", none, false⟩⟩,
       ⟨1, ['x'], ⟨"d2", none, none, 0, 1, "sentence", none, false⟩⟩]⟩
     "d1" 5 1 42 "sentence"
     ⟨"d1", String.toList "Hello world. Bye.", none, [], none, false, none⟩
     [String.toList "Hello world. Bye."]
     (by rfl) (by decide) (by rfl)).1⟩

/-! ## C3: the fusion contract of merge_and_rerank_results -/

theorem applyKwScore_id (kw : List SearchResult) (e : MergedEntry) :
    (applyKwScore kw e).id = e.id := by
  unfold applyKwScore
  cases kw.find? (fun r => r.id = e.id) with
  | none => rfl
  | some r => rfl

theorem applyKwScore_of_none (kw : List SearchResult) (e : MergedEntry)
    (h : kw.find? (fun r => r.id = e.id) = none) : applyKwScore kw e = e := by
  unfold applyKwScore
  rw [h]

theorem applyKwScore_cons_of_ne (r : SearchResult) (rest : List SearchResult)
    (e : MergedEntry) (h : ¬ (r.id = e.id)) :
    applyKwScore (r :: rest) e = applyKwScore rest e := by
  unfold applyKwScore
  rw [List.find?_cons_of_neg _ (by simpa using h)]

theorem foldl_upsertSem (sem : List SearchResult) :
    ∀ (acc : List MergedEntry),
    (sem.map (fun r => r.id)).Nodup →
    (∀ e ∈ acc, ∀ r ∈ sem, e.id ≠ r.id) →
    sem.foldl upsertSem acc = acc ++ sem.map semEntry := by
  induction sem with
  | nil =>
    intro acc _ _
    simp
  | cons r rest ih =>
    intro acc hnd hdisj
    rw [List.map_cons, List.nodup_cons] at hnd
    obtain ⟨hr_not, hnd1⟩ := hnd
    rw [List.foldl_cons]
    have hne : acc.any (fun e => e.id = r.id) = false := by
      rw [List.any_eq_false]
      intro e he
      simp only [decide_eq_true_eq]
      exact hdisj e he r (List.mem_cons_self _ _)
    have hup : upsertSem acc r = acc ++ [semEntry r] := by
      unfold upsertSem
      rw [if_neg (by simp [hne])]
    rw [hup, ih (acc ++ [semEntry r]) hnd1 ?_]
    · simp
    · intro e he r2 hr2
      rcases List.mem_append.mp he with h | h
      · exact hdisj e h r2 (List.mem_cons_of_mem _ hr2)
      · simp only [List.mem_singleton] at h
        subst h
        intro heq
        have heq2 : r.id = r2.id := heq
        refine hr_not ?_
        rw [heq2]
        exact List.mem_map_of_mem (fun s => s.id) hr2

theorem foldl_upsertKw (kw : List SearchResult) :
    ∀ (acc : List MergedEntry),
    (kw.map (fun r => r.id)).Nodup →
    kw.foldl upsertKw acc =
      acc.map (applyKwScore kw) ++
      (kw.filter (fun r => !(acc.any (fun e => e.id = r.id)))).map kwEntry := by
  induction kw with
  | nil =>
    intro acc _
    simp only [List.foldl_nil, List.filter_nil, List.map_nil, List.append_nil]
    rw [List.map_congr_left
      (fun e _ => (applyKwScore_of_none [] e rfl : applyKwScore [] e = id e))]
    simp
  | cons r rest ih =>
    intro acc hnd
    rw [List.map_cons, List.nodup_cons] at hnd
    obtain ⟨hr_not, hnd1⟩ := hnd
    have hrid : ∀ x ∈ rest, ¬ (x.id = r.id) := by
      intro x hx heq
      exact hr_not (heq ▸ List.mem_map_of_mem (fun s => s.id) hx)
    rw [List.foldl_cons]
    by_cases hmem : acc.any (fun e => e.id = r.id) = true
    · have hup : upsertKw acc r = acc.map
          (fun e => if e.id = r.id then { e with keyword_score := r.score } else e) := by
        unfold upsertKw
        rw [if_pos hmem]
      rw [hup, ih _ hnd1]
      congr 1
      · rw [List.map_map]
        refine List.map_congr_left ?_
        intro e _
        simp only [Function.comp]
        by_cases heq : e.id = r.id
        · rw [if_pos heq]
          have hnone : rest.find? (fun r2 => r2.id =
              ({ e with keyword_score := r.score } : MergedEntry).id) = none := by
            rw [List.find?_eq_none]
            intro x hx
            simp only [decide_eq_true_eq]
            intro hxe
            exact hrid x hx (by rw [hxe]; exact heq)
          rw [applyKwScore_of_none rest _ hnone]
          unfold applyKwScore
          rw [List.find?_cons_of_pos _ (by simp [heq])]
        · rw [if_neg heq]
          exact (applyKwScore_cons_of_ne r rest e
            (fun h => heq h.symm)).symm
      · refine congrArg (List.map kwEntry) ?_
        rw [List.filter_cons]
        have hpr : (!(acc.any (fun e => e.id = r.id))) = false := by
          rw [hmem]
          rfl
        rw [hpr]
        simp only [Bool.false_eq_true, if_false]
        refine List.filter_congr ?_
        intro x _
        have hany : (acc.map (fun e =>
            if e.id = r.id then { e with keyword_score := r.score } else e)).any
            (fun e => e.id = x.id) = acc.any (fun e => e.id = x.id) := by
          rw [List.any_map]
          refine congrArg _ ?_
          funext e
          simp only [Function.comp]
          by_cases heq : e.id = r.id
          · simp [heq]
          · simp [heq]
        rw [hany]
    · have hmem2 : acc.any (fun e => e.id = r.id) = false :=
        Bool.eq_false_iff.mpr hmem
      have hanyacc : ∀ e ∈ acc, ¬ (e.id = r.id) := by
        intro e he
        have := List.any_eq_false.mp hmem2 e he
        simpa using this
      have hup : upsertKw acc r = acc ++ [kwEntry r] := by
        unfold upsertKw
        rw [if_neg hmem]
      rw [hup, ih _ hnd1]
      have h1 : (acc ++ [kwEntry r]).map (applyKwScore rest) =
          acc.map (applyKwScore (r :: rest)) ++ [kwEntry r] := by
        rw [List.map_append]
        congr 1
        · refine List.map_congr_left ?_
          intro e he
          exact (applyKwScore_cons_of_ne r rest e
            (fun h => hanyacc e he h.symm)).symm
        · simp only [List.map_cons, List.map_nil]
          congr 1
          refine applyKwScore_of_none rest _ ?_
          rw [List.find?_eq_none]
          intro x hx
          simp only [decide_eq_true_eq]
          intro hxe
          exact hrid x hx (by simpa [kwEntry] using hxe)
      have h2 : rest.filter (fun x =>
            !((acc ++ [kwEntry r]).any (fun e => e.id = x.id))) =
          rest.filter (fun x => !(acc.any (fun e => e.id = x.id))) := by
        refine List.filter_congr ?_
        intro x hx
        have : (acc ++ [kwEntry r]).any (fun e => e.id = x.id) =
            acc.any (fun e => e.id = x.id) := by
          rw [List.any_append]
          have : ([kwEntry r].any (fun e => e.id = x.id)) = false := by
            simp only [List.any_cons, List.any_nil, Bool.or_false]
            simp [kwEntry]
            exact fun h => hrid x hx h.symm
          rw [this, Bool.or_false]
        rw [this]
      have h3 : (r :: rest).filter (fun x => !(acc.any (fun e => e.id = x.id))) =
          r :: rest.filter (fun x => !(acc.any (fun e => e.id = x.id))) := by
        rw [List.filter_cons, hmem2]
        rfl
      rw [h1, h2, h3]
      simp

theorem find?_self_of_nodup (l : List SearchResult) :
    (l.map (fun r => r.id)).Nodup →
    ∀ s ∈ l, l.find? (fun r => r.id = s.id) = some s := by
  induction l with
  | nil =>
    intro _ s hs
    simp at hs
  | cons a rest ih =>
    intro hnd s hs
    rw [List.map_cons, List.nodup_cons] at hnd
    obtain ⟨ha_not, hnd1⟩ := hnd
    rcases List.mem_cons.mp hs with h | h
    · subst h
      exact List.find?_cons_of_pos _ (by simp)
    · have hne : ¬ (a.id = s.id) := by
        intro heq
        refine ha_not ?_
        rw [heq]
        exact List.mem_map_of_mem (fun r => r.id) h
      rw [List.find?_cons_of_neg _ (by simpa using hne)]
      exact ih hnd1 s h

theorem merge_entries_eq (sem kw : List SearchResult)
    (hsem : (sem.map (fun r => r.id)).Nodup)
    (hkw : (kw.map (fun r => r.id)).Nodup) :
    kw.foldl upsertKw (sem.foldl upsertSem []) =
      (sem.map semEntry).map (applyKwScore kw) ++
      (kw.filter (fun r => !(sem.any (fun s => s.id = r.id)))).map kwEntry := by
  rw [foldl_upsertSem sem [] hsem (by simp), List.nil_append]
  rw [foldl_upsertKw kw (sem.map semEntry) hkw]
  congr 1
  refine congrArg (List.map kwEntry) ?_
  refine List.filter_congr ?_
  intro r _
  have h : ∀ (l : List SearchResult), (l.map semEntry).any (fun e => e.id = r.id) =
      l.any (fun s => s.id = r.id) := by
    intro l
    induction l with
    | nil => rfl
    | cons a rest iha =>
      simp only [List.map_cons, List.any_cons, iha]
      rfl
  rw [h sem]

theorem merge_entry_fields (sem kw : List SearchResult)
    (hsem : (sem.map (fun r => r.id)).Nodup)
    (hkw : (kw.map (fun r => r.id)).Nodup) :
    ∀ e ∈ (sem.map semEntry).map (applyKwScore kw) ++
      (kw.filter (fun r => !(sem.any (fun s => s.id = r.id)))).map kwEntry,
    e.semantic_score = semScoreOf sem e.id ∧
    e.keyword_score = kwScoreOf kw e.id ∧
    e.feedback_count = fcOf sem kw e.id ∧
    (e.id ∈ sem.map (fun r => r.id) ∨ e.id ∈ kw.map (fun r => r.id)) := by
  intro e he
  rcases List.mem_append.mp he with hmem | hmem
  · obtain ⟨e1, he1, rfl⟩ := List.mem_map.mp hmem
    obtain ⟨s, hs, rfl⟩ := List.mem_map.mp he1
    have hsemfind : sem.find? (fun r => r.id = s.id) = some s :=
      find?_self_of_nodup sem hsem s hs
    have hmemid : s.id ∈ sem.map (fun r => r.id) :=
      List.mem_map_of_mem (fun r => r.id) hs
    unfold applyKwScore
    cases hk : kw.find? (fun r => r.id = (semEntry s).id) with
    | some r =>
      have hk2 : kw.find? (fun r => r.id = s.id) = some r := hk
      refine ⟨?_, ?_, ?_, Or.inl hmemid⟩
      · show s.score = semScoreOf sem s.id
        unfold semScoreOf
        rw [hsemfind]
      · show r.score = kwScoreOf kw s.id
        unfold kwScoreOf
        rw [hk2]
      · show s.feedback_count = fcOf sem kw s.id
        unfold fcOf
        rw [hsemfind]
    | none =>
      have hk2 : kw.find? (fun r => r.id = s.id) = none := hk
      refine ⟨?_, ?_, ?_, Or.inl hmemid⟩
      · show s.score = semScoreOf sem s.id
        unfold semScoreOf
        rw [hsemfind]
      · show (0 : ℚ) = kwScoreOf kw s.id
        unfold kwScoreOf
        rw [hk2]
      · show s.feedback_count = fcOf sem kw s.id
        unfold fcOf
        rw [hsemfind]
  · obtain ⟨r, hr, rfl⟩ := List.mem_map.mp hmem
    obtain ⟨hrkw, hrnot⟩ := List.mem_filter.mp hr
    have hnone : ∀ x ∈ sem, ¬ (x.id = r.id) := by
      simpa using hrnot
    have hsemnone : sem.find? (fun x => x.id = (kwEntry r).id) = none := by
      rw [List.find?_eq_none]
      intro x hx
      simpa using hnone x hx
    have hkwfind : kw.find? (fun x => x.id = (kwEntry r).id) = some r :=
      find?_self_of_nodup kw hkw r hrkw
    refine ⟨?_, ?_, ?_, Or.inr (List.mem_map_of_mem (fun x => x.id) hrkw)⟩
    · show (0 : ℚ) = semScoreOf sem (kwEntry r).id
      unfold semScoreOf
      rw [hsemnone]
    · show r.score = kwScoreOf kw (kwEntry r).id
      unfold kwScoreOf
      rw [hkwfind]
    · show r.feedback_count = fcOf sem kw (kwEntry r).id
      unfold fcOf
      rw [hsemnone, hkwfind]

/-- C3: fusion builds a union keyed by record id with the missing side
scored 0.0, scores each record as the 70/30 combination boosted by the
capped feedback multiplier, sorts descending by final score and truncates
to `topK`; a record with raw combined score 0.6 and feedback count 10 gets
final score 0.72. -/
theorem merge_and_rerank_contract (sem kw : List SearchResult) (k : ℕ)
    (hsem : (sem.map (fun r => r.id)).Nodup)
    (hkw : (kw.map (fun r => r.id)).Nodup) :
    (∀ r ∈ merge_and_rerank_results sem kw k,
      r.score = applyBoost
        (7/10 * semScoreOf sem r.id + 3/10 * kwScoreOf kw r.id)
        (fcOf sem kw r.id) ∧
      (r.id ∈ sem.map (fun s => s.id) ∨ r.id ∈ kw.map (fun s => s.id))) ∧
    List.Sorted (fun a b => b.score ≤ a.score)
      (merge_and_rerank_results sem kw k) ∧
    (merge_and_rerank_results sem kw k).length =
      min k (sem.length +
        (kw.filter (fun r => !(sem.any (fun s => s.id = r.id)))).length) ∧
    (merge_and_rerank_results [⟨"rec", ['t'], none, 3/5, 10⟩]
        [⟨"rec", ['t'], none, 3/5, 10⟩] 5).map (fun r => r.score) = [18/25] := by
  have hE := merge_entries_eq sem kw hsem hkw
  refine ⟨?_, ?_, ?_, ?_⟩
  · intro r hr
    unfold merge_and_rerank_results at hr
    rw [hE] at hr
    have hr2 := List.mem_mergeSort.mp (List.mem_of_mem_take hr)
    obtain ⟨e, heE, rfl⟩ := List.mem_map.mp hr2
    obtain ⟨h1, h2, h3, h4⟩ := merge_entry_fields sem kw hsem hkw e heE
    constructor
    · show applyBoost (7/10 * e.semantic_score + 3/10 * e.keyword_score)
        e.feedback_count = _
      rw [h1, h2, h3]
      rfl
    · exact h4
  · unfold merge_and_rerank_results
    have hs := @List.sorted_mergeSort MergedResult
      (fun a b => decide (b.score ≤ a.score))
      (fun a b c hab hbc => by
        simp only [decide_eq_true_eq] at hab hbc ⊢
        exact le_trans hbc hab)
      (fun a b => by
        rcases le_total b.score a.score with h | h
        · simp [h]
        · simp [h])
      ((kw.foldl upsertKw (sem.foldl upsertSem [])).map scoreEntry)
    have hp := List.Pairwise.sublist (List.take_sublist k _) hs
    exact hp.imp (fun h => by simpa using h)
  · unfold merge_and_rerank_results
    rw [hE]
    simp [List.length_take]
  · norm_num [merge_and_rerank_results, upsertSem, upsertKw, semEntry, kwEntry,
      scoreEntry, applyBoost, feedbackBoost, pyMin, List.mergeSort]

/-- Witness for `merge_and_rerank_contract` at the scenario input. -/
theorem merge_and_rerank_contract_witness :
    (([⟨"rec", ['t'], none, 3/5, 10⟩] :
        List SearchResult).map (fun r => r.id)).Nodup ∧
    (∀ r ∈ merge_and_rerank_results [⟨"rec", ['t'], none, 3/5, 10⟩]
        [⟨"rec", ['t'], none, 3/5, 10⟩] 5,
      r.score = applyBoost
        (7/10 * semScoreOf [⟨"rec", ['t'], none, 3/5, 10⟩] r.id +
          3/10 * kwScoreOf [⟨"rec", ['t'], none, 3/5, 10⟩] r.id)
        (fcOf [⟨"rec", ['t'], none, 3/5, 10⟩]
          [⟨"rec", ['t'], none, 3/5, 10⟩] r.id)) :=
  ⟨by decide,
   fun r hr =>
     ((merge_and_rerank_contract [⟨"rec", ['t'], none, 3/5, 10⟩]
       [⟨"rec", ['t'], none, 3/5, 10⟩] 5 (by decide) (by decide)).1 r hr).1⟩

end LightRAG
